import Mathlib

/-!
Verification development for the color-algebra lattice simulator: an explicit
finite-difference evolution of four scalar density fields (photon, axion,
neutrino, energy) on a fixed 20 x 20 x 20 grid.  The floating-point arithmetic
of the original program is modelled over the real numbers; the flat storage
vectors are modelled as total functions from linear offsets to reals, and the
imperative loops as left folds that perform pointwise updates.
-/

set_option maxRecDepth 8000

noncomputable section

namespace ColorAlgebra

/-! ### Constants (from main.rs) -/

def G_A_GAMMA : ℝ := 1e-12

def PHOTON_TO_NEUTRINO_COEFF : ℝ := 1e-12

def Q : ℝ := 1.001

def NX : ℕ := 20

def NY : ℕ := 20

def NZ : ℕ := 20

def DX : ℝ := 0.5e-15

def DT : ℝ := 1.22e-15

def PHOTON_INIT : ℝ := 1e30

def AXION_INIT : ℝ := 1e26

def NEUTRINO_INIT : ℝ := 1e20

def ENERGY_INIT : ℝ := 3.2e35

def EPSILON_CRIT : ℝ := 1.6e35

def DELTA : ℝ := 0.2e35

def D_PH : ℝ := 1e-4

def D_AX : ℝ := 1e-4

def D_NU : ℝ := 1e-4

def D_E : ℝ := 1e-4

def LAMBDA_NU : ℝ := 1e-6

def ALPHA_EXPANSION : ℝ := 1e-6

def GW_STR : ℝ := 1e-21

def GW_FREQ : ℝ := 1e3

/-! ### Nonlinear saturation functions -/

/-- Axion to photon conversion rate with saturation in the photon density. -/
def axion_photon_conversion (n_ax n_ph : ℝ) : ℝ :=
  let saturation := 1 + n_ph / 1e33
  G_A_GAMMA * n_ax / saturation

/-- Photon to neutrino conversion rate with saturation in the photon density. -/
def photon_neutrino_conversion (n_ph : ℝ) : ℝ :=
  let saturation := 1 + n_ph / 1e33
  PHOTON_TO_NEUTRINO_COEFF * n_ph / saturation

/-! ### Field structure and grid indexing -/

/-- The simulation state: four flat arrays of per-cell densities, modelled as
total functions from linear offsets to reals. -/
structure Field where
  photon_density : ℕ → ℝ
  axion_density : ℕ → ℝ
  neutrino_density : ℕ → ℝ
  energy_density : ℕ → ℝ

/-- Linear offset of cell (x, y, z); x varies fastest. -/
def idx (x y z : ℕ) : ℕ := x + NX * (y + NY * z)

/-- Clamp a signed coordinate into the valid range [0, max-1].  The cast of
the clamped signed value back to an unsigned index is modelled by Int.toNat. -/
def boundary_index (x : ℤ) (max : ℕ) : ℕ :=
  (if x < 0 then 0 else if (max : ℤ) ≤ x then (max : ℤ) - 1 else x).toNat

/-- Six-point Laplacian stencil with edge-replicated (clamped) boundaries. -/
def laplacian (arr : ℕ → ℝ) (x y z : ℕ) : ℝ :=
  let xm := boundary_index ((x : ℤ) - 1) NX
  let xp := boundary_index ((x : ℤ) + 1) NX
  let ym := boundary_index ((y : ℤ) - 1) NY
  let yp := boundary_index ((y : ℤ) + 1) NY
  let zm := boundary_index ((z : ℤ) - 1) NZ
  let zp := boundary_index ((z : ℤ) + 1) NZ
  let c := arr (idx x y z)
  let dx2 := DX * DX
  (arr (idx xp y z) + arr (idx xm y z)
    + arr (idx x yp z) + arr (idx x ym z)
    + arr (idx x y zp) + arr (idx x y zm) - 6 * c) / dx2

/-! ### Equation of state and metric factor -/

/-- Pressure from energy density: smooth blend of a radiation-like equation of
state (coefficient 1/3) and a soft one (coefficient 0.15). -/
def eos_pressure (eps : ℝ) : ℝ :=
  let w_qgp := 0.5 * (1 + Real.tanh ((eps - EPSILON_CRIT) / DELTA))
  let p_qgp := (1 / 3) * eps
  let p_hg := 0.15 * eps
  w_qgp * p_qgp + (1 - w_qgp) * p_hg

/-- Gravitational wave metric factor. -/
def metric_factor (t x : ℝ) : ℝ :=
  1 + GW_STR * Real.sin (2 * Real.pi * GW_FREQ * t) * x

/-! ### Hecke R-matrix (braiding) step -/

/-- Deformation factor Q to the power -0.5, as computed inside the pair loop. -/
def qm : ℝ := Q ^ (-0.5 : ℝ)

/-- Deformation factor Q to the power 0.5, as computed inside the pair loop. -/
def qp : ℝ := Q ^ (0.5 : ℝ)

/-- One braiding update of the pair of sites at linear offsets i and j: the
four new photon/axion values are computed from the current values at i and j
and then written; neutrino and energy are untouched. -/
def heckePair (g : Field) (i j : ℕ) : Field :=
  let ph_i := g.photon_density i
  let ax_i := g.axion_density i
  let ph_j := g.photon_density j
  let ax_j := g.axion_density j
  let ph_i_new := 0.5 * (ph_i * qm + ax_j)
  let ax_i_new := 0.5 * (ax_i * qp + ph_j)
  let ph_j_new := 0.5 * (ph_j * qm + ax_i)
  let ax_j_new := 0.5 * (ax_j * qp + ph_i)
  { photon_density := Function.update (Function.update g.photon_density i ph_i_new) j ph_j_new
    axion_density := Function.update (Function.update g.axion_density i ax_i_new) j ax_j_new
    neutrino_density := g.neutrino_density
    energy_density := g.energy_density }

/-- The inner x-loop of the braiding step on the line (y, z): pairs
(x, x+1) processed for x = 0, 1, ..., NX-2 in increasing order. -/
def linePass (g : Field) (y z : ℕ) : Field :=
  (List.range (NX - 1)).foldl (fun h x => heckePair h (idx x y z) (idx (x + 1) y z)) g

/-- The (z, y) iteration order of the two outer loops of the braiding step. -/
def linesZY : List (ℕ × ℕ) :=
  (List.range NZ).flatMap fun z => (List.range NY).map fun y => (z, y)

/-- The full braiding step: the inner pair loop applied to every (y, z) line,
z outermost, matching the triple loop of the source. -/
def apply_hecke_r_matrix (f : Field) : Field :=
  linesZY.foldl (fun g p => linePass g p.2 p.1) f

/-- One step of the manual left-to-right recurrence of the spec on a single
x-line, acting on the pair (photon values, axion values) of the line. -/
def heckeLineStep (s : (ℕ → ℝ) × (ℕ → ℝ)) (x : ℕ) : (ℕ → ℝ) × (ℕ → ℝ) :=
  let ph_i := s.1 x
  let ax_i := s.2 x
  let ph_j := s.1 (x + 1)
  let ax_j := s.2 (x + 1)
  (Function.update (Function.update s.1 x (0.5 * (ph_i * qm + ax_j))) (x + 1) (0.5 * (ph_j * qm + ax_i)),
   Function.update (Function.update s.2 x (0.5 * (ax_i * qp + ph_j))) (x + 1) (0.5 * (ax_j * qp + ph_i)))

/-- The manual left-to-right recurrence of the spec along one x-line. -/
def lineRecurrence (ph ax : ℕ → ℝ) : (ℕ → ℝ) × (ℕ → ℝ) :=
  (List.range (NX - 1)).foldl heckeLineStep (ph, ax)

/-! ### Reaction-diffusion step -/

/-- The (z, y, x) iteration order of the triple loop of the update pass. -/
def cellsZYX : List (ℕ × ℕ × ℕ) :=
  (List.range NZ).flatMap fun z =>
    (List.range NY).flatMap fun y =>
      (List.range NX).map fun x => (z, y, x)

/-- New photon density of cell (x, y, z), read off the frozen snapshot f. -/
def rd_ph_new (f : Field) (t : ℝ) (x y z : ℕ) : ℝ :=
  let i := idx x y z
  let n_ph := f.photon_density i
  let n_ax := f.axion_density i
  let lap_ph := laplacian f.photon_density x y z
  let mf := metric_factor t ((x : ℝ) * DX)
  let d_ax_to_ph := axion_photon_conversion n_ax n_ph * DT
  let d_ph_to_nu := photon_neutrino_conversion n_ph * DT
  max ((n_ph + D_PH * lap_ph * DT + d_ax_to_ph - d_ph_to_nu) * mf) 0

/-- New axion density of cell (x, y, z), read off the frozen snapshot f. -/
def rd_ax_new (f : Field) (t : ℝ) (x y z : ℕ) : ℝ :=
  let i := idx x y z
  let n_ph := f.photon_density i
  let n_ax := f.axion_density i
  let lap_ax := laplacian f.axion_density x y z
  let mf := metric_factor t ((x : ℝ) * DX)
  let d_ax_to_ph := axion_photon_conversion n_ax n_ph * DT
  max ((n_ax + D_AX * lap_ax * DT - d_ax_to_ph) * mf) 0

/-- New neutrino density of cell (x, y, z), read off the frozen snapshot f. -/
def rd_nu_new (f : Field) (t : ℝ) (x y z : ℕ) : ℝ :=
  let i := idx x y z
  let n_ph := f.photon_density i
  let n_nu := f.neutrino_density i
  let lap_nu := laplacian f.neutrino_density x y z
  let mf := metric_factor t ((x : ℝ) * DX)
  let d_ph_to_nu := photon_neutrino_conversion n_ph * DT
  max ((n_nu + D_NU * lap_nu * DT + d_ph_to_nu) * mf) 0

/-- New energy density of cell (x, y, z), read off the frozen snapshot f. -/
def rd_e_new (f : Field) (t : ℝ) (x y z : ℕ) : ℝ :=
  let i := idx x y z
  let n_nu := f.neutrino_density i
  let eps := f.energy_density i
  let lap_e := laplacian f.energy_density x y z
  let p := eos_pressure eps
  let mf := metric_factor t ((x : ℝ) * DX)
  let d_e_nu := LAMBDA_NU * n_nu * DT
  let d_e_exp := p * ALPHA_EXPANSION * DT
  max ((eps + D_E * lap_e * DT - d_e_nu - d_e_exp) * mf) 0

/-- Writing the four new values of one cell c = (z, y, x) into the output
buffers g; every value is read off the frozen snapshot f only. -/
def rdUpdateCell (f : Field) (t : ℝ) (g : Field) (c : ℕ × ℕ × ℕ) : Field :=
  let i := idx c.2.2 c.2.1 c.1
  { photon_density := Function.update g.photon_density i (rd_ph_new f t c.2.2 c.2.1 c.1)
    axion_density := Function.update g.axion_density i (rd_ax_new f t c.2.2 c.2.1 c.1)
    neutrino_density := Function.update g.neutrino_density i (rd_nu_new f t c.2.2 c.2.1 c.1)
    energy_density := Function.update g.energy_density i (rd_e_new f t c.2.2 c.2.1 c.1) }

/-- The full reaction-diffusion pass of one timestep: the output buffers start
as clones of the current state and each cell is overwritten once, in (z, y, x)
loop order, with values computed from the frozen snapshot. -/
def reaction_diffusion_step (f : Field) (t : ℝ) : Field :=
  cellsZYX.foldl (rdUpdateCell f t) f

/-- One full timestep of the driver loop: the reaction-diffusion pass followed
by the braiding pass. -/
def timestep (f : Field) (t : ℝ) : Field :=
  apply_hecke_r_matrix (reaction_diffusion_step f t)

/-- The initial field: uniform initial values per field. -/
def Field.new : Field :=
  { photon_density := fun _ => PHOTON_INIT
    axion_density := fun _ => AXION_INIT
    neutrino_density := fun _ => NEUTRINO_INIT
    energy_density := fun _ => ENERGY_INIT }

/-! ### Index arithmetic -/

lemma idx_lt {x y z : ℕ} (hx : x < NX) (hy : y < NY) (hz : z < NZ) :
    idx x y z < NX * NY * NZ := by
  simp only [idx, NX, NY, NZ] at *
  omega

lemma idx_inj_line {x₁ x₂ y z : ℕ} : idx x₁ y z = idx x₂ y z ↔ x₁ = x₂ := by
  unfold idx
  omega

lemma idx_inj {x y z x' y' z' : ℕ} (hx : x < NX) (hy : y < NY) (hz : z < NZ)
    (hx' : x' < NX) (hy' : y' < NY) (hz' : z' < NZ)
    (h : idx x y z = idx x' y' z') : x = x' ∧ y = y' ∧ z = z' := by
  simp only [idx, NX, NY, NZ] at *
  omega

lemma exists_idx {n : ℕ} (hn : n < NX * NY * NZ) :
    ∃ x y z, x < NX ∧ y < NY ∧ z < NZ ∧ idx x y z = n := by
  refine ⟨n % 20, (n / 20) % 20, n / 400, ?_, ?_, ?_, ?_⟩ <;>
    simp only [idx, NX, NY, NZ] at * <;> omega

/-! ### Generic fold lemmas -/

lemma foldl_update_apply_of_ne {α : Type} (ι : α → ℕ) (v : α → ℝ) :
    ∀ (l : List α) (g : ℕ → ℝ) (n : ℕ), (∀ a ∈ l, ι a ≠ n) →
      (l.foldl (fun h a => Function.update h (ι a) (v a)) g) n = g n := by
  intro l
  induction l with
  | nil => intro g n _; rfl
  | cons a tl ih =>
    intro g n hne
    simp only [List.foldl_cons]
    rw [ih _ n (fun b hb => hne b (List.mem_cons_of_mem _ hb))]
    exact Function.update_noteq (Ne.symm (hne a (List.mem_cons_self a tl))) _ _

lemma foldl_update_apply_of_mem {α : Type} [DecidableEq α] (ι : α → ℕ) (v : α → ℝ) :
    ∀ (l : List α) (g : ℕ → ℝ) (a₀ : α), a₀ ∈ l →
      (∀ a ∈ l, ∀ b ∈ l, ι a = ι b → a = b) →
      (l.foldl (fun h a => Function.update h (ι a) (v a)) g) (ι a₀) = v a₀ := by
  intro l
  induction l with
  | nil => intro g a₀ h; exact absurd h (List.not_mem_nil a₀)
  | cons a tl ih =>
    intro g a₀ hmem hinj
    simp only [List.foldl_cons]
    by_cases htl : a₀ ∈ tl
    · exact ih _ a₀ htl fun b hb b' hb' =>
        hinj b (List.mem_cons_of_mem _ hb) b' (List.mem_cons_of_mem _ hb')
    · have ha : a₀ = a := by
        rcases List.mem_cons.1 hmem with h | h
        · exact h
        · exact absurd h htl
      subst ha
      rw [foldl_update_apply_of_ne]
      · exact Function.update_same _ _ _
      · intro b hb hbi
        exact htl (by
          have : b = a₀ := hinj b (List.mem_cons_of_mem _ hb) a₀ hmem hbi
          exact this ▸ hb)

lemma foldl_fixed_of_mem {α β : Type} (f : β → α → β) (b : β) :
    ∀ l : List α, (∀ a ∈ l, f b a = b) → l.foldl f b = b := by
  intro l
  induction l with
  | nil => intro _; rfl
  | cons a tl ih =>
    intro h
    simp only [List.foldl_cons, h a (List.mem_cons_self a tl)]
    exact ih fun b hb => h b (List.mem_cons_of_mem _ hb)

lemma foldl_invariant {α β : Type} (P : β → Prop) (f : β → α → β) :
    ∀ (l : List α) (b : β), (∀ b a, P b → P (f b a)) → P b → P (l.foldl f b) := by
  intro l
  induction l with
  | nil => intro b _ hb; exact hb
  | cons a tl ih =>
    intro b hstep hb
    exact ih _ hstep (hstep b a hb)

/-! ### Cell and line list membership -/

lemma mem_cellsZYX {c : ℕ × ℕ × ℕ} :
    c ∈ cellsZYX ↔ c.1 < NZ ∧ c.2.1 < NY ∧ c.2.2 < NX := by
  obtain ⟨z, y, x⟩ := c
  simp only [cellsZYX, List.mem_flatMap, List.mem_map, List.mem_range, Prod.mk.injEq]
  constructor
  · rintro ⟨a, ha, b, hb, cc, hc, rfl, rfl, rfl⟩
    exact ⟨ha, hb, hc⟩
  · rintro ⟨hz, hy, hx⟩
    exact ⟨z, hz, y, hy, x, hx, rfl, rfl, rfl⟩

lemma mem_linesZY {p : ℕ × ℕ} :
    p ∈ linesZY ↔ p.1 < NZ ∧ p.2 < NY := by
  obtain ⟨z, y⟩ := p
  simp [linesZY, List.mem_flatMap, List.mem_map, List.mem_range]

lemma linesZY_nodup : linesZY.Nodup := by
  unfold linesZY
  refine List.nodup_flatMap.2 ⟨?_, ?_⟩
  · intro z _
    exact (List.nodup_range NY).map fun a b hab => congrArg Prod.snd hab
  · refine List.Pairwise.imp ?_ (List.pairwise_lt_range NZ)
    intro z₁ z₂ hlt s hm₁ hm₂
    simp only [Function.onFun, List.mem_map, List.mem_range] at hm₁ hm₂
    obtain ⟨y₁, _, rfl⟩ := hm₁
    obtain ⟨y₂, _, h⟩ := hm₂
    exact absurd (congrArg Prod.fst h) (by simpa using hlt.ne')

/-! ### Pointwise characterization of the reaction-diffusion pass -/

lemma rd_foldl_photon (f : Field) (t : ℝ) :
    ∀ (l : List (ℕ × ℕ × ℕ)) (g : Field),
      (l.foldl (rdUpdateCell f t) g).photon_density
        = l.foldl (fun h c => Function.update h (idx c.2.2 c.2.1 c.1) (rd_ph_new f t c.2.2 c.2.1 c.1))
            g.photon_density := by
  intro l
  induction l with
  | nil => intro g; rfl
  | cons a tl ih => intro g; exact ih _

lemma rd_foldl_axion (f : Field) (t : ℝ) :
    ∀ (l : List (ℕ × ℕ × ℕ)) (g : Field),
      (l.foldl (rdUpdateCell f t) g).axion_density
        = l.foldl (fun h c => Function.update h (idx c.2.2 c.2.1 c.1) (rd_ax_new f t c.2.2 c.2.1 c.1))
            g.axion_density := by
  intro l
  induction l with
  | nil => intro g; rfl
  | cons a tl ih => intro g; exact ih _

lemma rd_foldl_neutrino (f : Field) (t : ℝ) :
    ∀ (l : List (ℕ × ℕ × ℕ)) (g : Field),
      (l.foldl (rdUpdateCell f t) g).neutrino_density
        = l.foldl (fun h c => Function.update h (idx c.2.2 c.2.1 c.1) (rd_nu_new f t c.2.2 c.2.1 c.1))
            g.neutrino_density := by
  intro l
  induction l with
  | nil => intro g; rfl
  | cons a tl ih => intro g; exact ih _

lemma rd_foldl_energy (f : Field) (t : ℝ) :
    ∀ (l : List (ℕ × ℕ × ℕ)) (g : Field),
      (l.foldl (rdUpdateCell f t) g).energy_density
        = l.foldl (fun h c => Function.update h (idx c.2.2 c.2.1 c.1) (rd_e_new f t c.2.2 c.2.1 c.1))
            g.energy_density := by
  intro l
  induction l with
  | nil => intro g; rfl
  | cons a tl ih => intro g; exact ih _

lemma cellsZYX_idx_inj :
    ∀ a ∈ cellsZYX, ∀ b ∈ cellsZYX,
      idx a.2.2 a.2.1 a.1 = idx b.2.2 b.2.1 b.1 → a = b := by
  intro a ha b hb h
  obtain ⟨za, ya, xa⟩ := a
  obtain ⟨zb, yb, xb⟩ := b
  obtain ⟨hza, hya, hxa⟩ := mem_cellsZYX.1 ha
  obtain ⟨hzb, hyb, hxb⟩ := mem_cellsZYX.1 hb
  obtain ⟨h1, h2, h3⟩ := idx_inj hxa hya hza hxb hyb hzb h
  exact Prod.ext h3 (Prod.ext h2 h1)

lemma reaction_diffusion_step_photon (f : Field) (t : ℝ) {x y z : ℕ}
    (hx : x < NX) (hy : y < NY) (hz : z < NZ) :
    (reaction_diffusion_step f t).photon_density (idx x y z) = rd_ph_new f t x y z := by
  unfold reaction_diffusion_step
  rw [rd_foldl_photon]
  have hmem : (z, y, x) ∈ cellsZYX := mem_cellsZYX.2 ⟨hz, hy, hx⟩
  have h2 := foldl_update_apply_of_mem (fun c => idx c.2.2 c.2.1 c.1)
    (fun c => rd_ph_new f t c.2.2 c.2.1 c.1) cellsZYX f.photon_density (z, y, x) hmem cellsZYX_idx_inj
  exact h2

lemma reaction_diffusion_step_axion (f : Field) (t : ℝ) {x y z : ℕ}
    (hx : x < NX) (hy : y < NY) (hz : z < NZ) :
    (reaction_diffusion_step f t).axion_density (idx x y z) = rd_ax_new f t x y z := by
  unfold reaction_diffusion_step
  rw [rd_foldl_axion]
  have hmem : (z, y, x) ∈ cellsZYX := mem_cellsZYX.2 ⟨hz, hy, hx⟩
  have h2 := foldl_update_apply_of_mem (fun c => idx c.2.2 c.2.1 c.1)
    (fun c => rd_ax_new f t c.2.2 c.2.1 c.1) cellsZYX f.axion_density (z, y, x) hmem cellsZYX_idx_inj
  exact h2

lemma reaction_diffusion_step_neutrino (f : Field) (t : ℝ) {x y z : ℕ}
    (hx : x < NX) (hy : y < NY) (hz : z < NZ) :
    (reaction_diffusion_step f t).neutrino_density (idx x y z) = rd_nu_new f t x y z := by
  unfold reaction_diffusion_step
  rw [rd_foldl_neutrino]
  have hmem : (z, y, x) ∈ cellsZYX := mem_cellsZYX.2 ⟨hz, hy, hx⟩
  have h2 := foldl_update_apply_of_mem (fun c => idx c.2.2 c.2.1 c.1)
    (fun c => rd_nu_new f t c.2.2 c.2.1 c.1) cellsZYX f.neutrino_density (z, y, x) hmem cellsZYX_idx_inj
  exact h2

lemma reaction_diffusion_step_energy (f : Field) (t : ℝ) {x y z : ℕ}
    (hx : x < NX) (hy : y < NY) (hz : z < NZ) :
    (reaction_diffusion_step f t).energy_density (idx x y z) = rd_e_new f t x y z := by
  unfold reaction_diffusion_step
  rw [rd_foldl_energy]
  have hmem : (z, y, x) ∈ cellsZYX := mem_cellsZYX.2 ⟨hz, hy, hx⟩
  have h2 := foldl_update_apply_of_mem (fun c => idx c.2.2 c.2.1 c.1)
    (fun c => rd_e_new f t c.2.2 c.2.1 c.1) cellsZYX f.energy_density (z, y, x) hmem cellsZYX_idx_inj
  exact h2

lemma reaction_diffusion_step_untouched (f : Field) (t : ℝ) {n : ℕ}
    (hn : NX * NY * NZ ≤ n) :
    (reaction_diffusion_step f t).photon_density n = f.photon_density n
    ∧ (reaction_diffusion_step f t).axion_density n = f.axion_density n
    ∧ (reaction_diffusion_step f t).neutrino_density n = f.neutrino_density n
    ∧ (reaction_diffusion_step f t).energy_density n = f.energy_density n := by
  have hne : ∀ a ∈ cellsZYX, idx a.2.2 a.2.1 a.1 ≠ n := by
    intro a ha
    obtain ⟨hza, hya, hxa⟩ := mem_cellsZYX.1 ha
    exact Nat.ne_of_lt (Nat.lt_of_lt_of_le (idx_lt hxa hya hza) hn)
  unfold reaction_diffusion_step
  refine ⟨?_, ?_, ?_, ?_⟩
  · rw [rd_foldl_photon]; exact foldl_update_apply_of_ne _ _ cellsZYX _ n hne
  · rw [rd_foldl_axion]; exact foldl_update_apply_of_ne _ _ cellsZYX _ n hne
  · rw [rd_foldl_neutrino]; exact foldl_update_apply_of_ne _ _ cellsZYX _ n hne
  · rw [rd_foldl_energy]; exact foldl_update_apply_of_ne _ _ cellsZYX _ n hne

/-- A uniform all-ones field, used to instantiate universally quantified
statements at a concrete input. -/
def oneField : Field :=
  { photon_density := fun _ => 1
    axion_density := fun _ => 1
    neutrino_density := fun _ => 1
    energy_density := fun _ => 1 }

/-- C1: for every cell (x, y, z) of the grid and every elapsed time t, the
reaction-diffusion step computes the new value of each of the four fields from
the frozen pre-step snapshot f only: the provisional value (density plus
diffusion term plus/minus conversion and loss fluxes) is multiplied by the
metric factor and floored at zero.  Every quantity on the right-hand side is
read off f, so no new value of any cell depends on an already-updated cell. -/
theorem claim_C1_reaction_diffusion_pointwise (f : Field) (t : ℝ) (x y z : ℕ)
    (hx : x < NX) (hy : y < NY) (hz : z < NZ) :
    (reaction_diffusion_step f t).photon_density (idx x y z)
      = max ((f.photon_density (idx x y z)
          + D_PH * laplacian f.photon_density x y z * DT
          + axion_photon_conversion (f.axion_density (idx x y z)) (f.photon_density (idx x y z)) * DT
          - photon_neutrino_conversion (f.photon_density (idx x y z)) * DT)
          * metric_factor t ((x : ℝ) * DX)) 0
    ∧ (reaction_diffusion_step f t).axion_density (idx x y z)
      = max ((f.axion_density (idx x y z)
          + D_AX * laplacian f.axion_density x y z * DT
          - axion_photon_conversion (f.axion_density (idx x y z)) (f.photon_density (idx x y z)) * DT)
          * metric_factor t ((x : ℝ) * DX)) 0
    ∧ (reaction_diffusion_step f t).neutrino_density (idx x y z)
      = max ((f.neutrino_density (idx x y z)
          + D_NU * laplacian f.neutrino_density x y z * DT
          + photon_neutrino_conversion (f.photon_density (idx x y z)) * DT)
          * metric_factor t ((x : ℝ) * DX)) 0
    ∧ (reaction_diffusion_step f t).energy_density (idx x y z)
      = max ((f.energy_density (idx x y z)
          + D_E * laplacian f.energy_density x y z * DT
          - LAMBDA_NU * f.neutrino_density (idx x y z) * DT
          - eos_pressure (f.energy_density (idx x y z)) * ALPHA_EXPANSION * DT)
          * metric_factor t ((x : ℝ) * DX)) 0 := by
  refine ⟨?_, ?_, ?_, ?_⟩
  · rw [reaction_diffusion_step_photon f t hx hy hz]; simp only [rd_ph_new]
  · rw [reaction_diffusion_step_axion f t hx hy hz]; simp only [rd_ax_new]
  · rw [reaction_diffusion_step_neutrino f t hx hy hz]; simp only [rd_nu_new]
  · rw [reaction_diffusion_step_energy f t hx hy hz]; simp only [rd_e_new]

/-- Witness for C1 at the all-ones field, t = 0, cell (0, 0, 0). -/
theorem claim_C1_witness :
    (reaction_diffusion_step oneField 0).photon_density (idx 0 0 0)
      = max ((oneField.photon_density (idx 0 0 0)
          + D_PH * laplacian oneField.photon_density 0 0 0 * DT
          + axion_photon_conversion (oneField.axion_density (idx 0 0 0)) (oneField.photon_density (idx 0 0 0)) * DT
          - photon_neutrino_conversion (oneField.photon_density (idx 0 0 0)) * DT)
          * metric_factor 0 ((0 : ℝ) * DX)) 0
    ∧ (reaction_diffusion_step oneField 0).axion_density (idx 0 0 0)
      = max ((oneField.axion_density (idx 0 0 0)
          + D_AX * laplacian oneField.axion_density 0 0 0 * DT
          - axion_photon_conversion (oneField.axion_density (idx 0 0 0)) (oneField.photon_density (idx 0 0 0)) * DT)
          * metric_factor 0 ((0 : ℝ) * DX)) 0
    ∧ (reaction_diffusion_step oneField 0).neutrino_density (idx 0 0 0)
      = max ((oneField.neutrino_density (idx 0 0 0)
          + D_NU * laplacian oneField.neutrino_density 0 0 0 * DT
          + photon_neutrino_conversion (oneField.photon_density (idx 0 0 0)) * DT)
          * metric_factor 0 ((0 : ℝ) * DX)) 0
    ∧ (reaction_diffusion_step oneField 0).energy_density (idx 0 0 0)
      = max ((oneField.energy_density (idx 0 0 0)
          + D_E * laplacian oneField.energy_density 0 0 0 * DT
          - LAMBDA_NU * oneField.neutrino_density (idx 0 0 0) * DT
          - eos_pressure (oneField.energy_density (idx 0 0 0)) * ALPHA_EXPANSION * DT)
          * metric_factor 0 ((0 : ℝ) * DX)) 0 := by
  have hcast : ((0 : ℕ) : ℝ) = (0 : ℝ) := by norm_num
  have h := claim_C1_reaction_diffusion_pointwise oneField 0 0 0 0
    (by decide) (by decide) (by decide)
  rw [hcast] at h
  exact h

/-- C2: for all cells and all timesteps, all four density values are
nonnegative immediately after the reaction-diffusion step, because each final
value is unconditionally clamped to a floor of zero. -/
theorem claim_C2_nonnegative_after_rd (f : Field) (t : ℝ) (x y z : ℕ)
    (hx : x < NX) (hy : y < NY) (hz : z < NZ) :
    0 ≤ (reaction_diffusion_step f t).photon_density (idx x y z)
    ∧ 0 ≤ (reaction_diffusion_step f t).axion_density (idx x y z)
    ∧ 0 ≤ (reaction_diffusion_step f t).neutrino_density (idx x y z)
    ∧ 0 ≤ (reaction_diffusion_step f t).energy_density (idx x y z) := by
  refine ⟨?_, ?_, ?_, ?_⟩
  · rw [reaction_diffusion_step_photon f t hx hy hz]; exact le_max_right _ _
  · rw [reaction_diffusion_step_axion f t hx hy hz]; exact le_max_right _ _
  · rw [reaction_diffusion_step_neutrino f t hx hy hz]; exact le_max_right _ _
  · rw [reaction_diffusion_step_energy f t hx hy hz]; exact le_max_right _ _

/-- Witness for C2 at the all-ones field, t = 0, cell (1, 2, 3). -/
theorem claim_C2_witness :
    0 ≤ (reaction_diffusion_step oneField 0).photon_density (idx 1 2 3)
    ∧ 0 ≤ (reaction_diffusion_step oneField 0).axion_density (idx 1 2 3)
    ∧ 0 ≤ (reaction_diffusion_step oneField 0).neutrino_density (idx 1 2 3)
    ∧ 0 ≤ (reaction_diffusion_step oneField 0).energy_density (idx 1 2 3) :=
  claim_C2_nonnegative_after_rd oneField 0 1 2 3 (by decide) (by decide) (by decide)

/-! ### Structure of the braiding pass -/

lemma qm_pos : 0 < qm := Real.rpow_pos_of_pos (by norm_num [Q]) _

lemma qp_pos : 0 < qp := Real.rpow_pos_of_pos (by norm_num [Q]) _

lemma qp_lt : qp < 1.001 := by
  have h := Real.rpow_lt_rpow_of_exponent_lt (x := Q) (by norm_num [Q])
    (show (0.5 : ℝ) < 1 by norm_num)
  simpa [qp, Q, Real.rpow_one] using h

lemma heckePair_nu_e (g : Field) (i j : ℕ) :
    (heckePair g i j).neutrino_density = g.neutrino_density
    ∧ (heckePair g i j).energy_density = g.energy_density :=
  ⟨rfl, rfl⟩

lemma heckePair_line_rel {y z x : ℕ} {g : Field} {s : (ℕ → ℝ) × (ℕ → ℝ)}
    (hph : ∀ p, g.photon_density (idx p y z) = s.1 p)
    (hax : ∀ p, g.axion_density (idx p y z) = s.2 p) (p : ℕ) :
    (heckePair g (idx x y z) (idx (x + 1) y z)).photon_density (idx p y z)
      = (heckeLineStep s x).1 p
    ∧ (heckePair g (idx x y z) (idx (x + 1) y z)).axion_density (idx p y z)
      = (heckeLineStep s x).2 p := by
  constructor <;>
    simp only [heckePair, heckeLineStep, Function.update_apply, idx_inj_line, hph, hax]

lemma lineFold_rel {y z : ℕ} :
    ∀ (l : List ℕ) (g : Field) (s : (ℕ → ℝ) × (ℕ → ℝ)),
      (∀ p, g.photon_density (idx p y z) = s.1 p) →
      (∀ p, g.axion_density (idx p y z) = s.2 p) →
      ∀ p,
        (l.foldl (fun h x => heckePair h (idx x y z) (idx (x + 1) y z)) g).photon_density (idx p y z)
          = (l.foldl heckeLineStep s).1 p
        ∧ (l.foldl (fun h x => heckePair h (idx x y z) (idx (x + 1) y z)) g).axion_density (idx p y z)
          = (l.foldl heckeLineStep s).2 p := by
  intro l
  induction l with
  | nil => intro g s hph hax p; exact ⟨hph p, hax p⟩
  | cons a tl ih =>
    intro g s hph hax p
    simp only [List.foldl_cons]
    exact ih _ _ (fun q => (heckePair_line_rel hph hax q).1)
      (fun q => (heckePair_line_rel hph hax q).2) p

lemma linePass_line (f : Field) (y z p : ℕ) :
    (linePass f y z).photon_density (idx p y z)
      = (lineRecurrence (fun q => f.photon_density (idx q y z))
          (fun q => f.axion_density (idx q y z))).1 p
    ∧ (linePass f y z).axion_density (idx p y z)
      = (lineRecurrence (fun q => f.photon_density (idx q y z))
          (fun q => f.axion_density (idx q y z))).2 p :=
  lineFold_rel (List.range (NX - 1)) f _ (fun _ => rfl) (fun _ => rfl) p

lemma heckePair_frame {g : Field} {i j n : ℕ} (hi : n ≠ i) (hj : n ≠ j) :
    (heckePair g i j).photon_density n = g.photon_density n
    ∧ (heckePair g i j).axion_density n = g.axion_density n := by
  constructor <;> simp only [heckePair, Function.update_apply, if_neg hi, if_neg hj]

lemma lineFold_frame {y z n : ℕ} :
    ∀ (l : List ℕ) (g : Field), (∀ x ∈ l, n ≠ idx x y z ∧ n ≠ idx (x + 1) y z) →
      (l.foldl (fun h x => heckePair h (idx x y z) (idx (x + 1) y z)) g).photon_density n
        = g.photon_density n
      ∧ (l.foldl (fun h x => heckePair h (idx x y z) (idx (x + 1) y z)) g).axion_density n
        = g.axion_density n := by
  intro l
  induction l with
  | nil => intro g _; exact ⟨rfl, rfl⟩
  | cons a tl ih =>
    intro g hn
    simp only [List.foldl_cons]
    have ha := hn a (List.mem_cons_self a tl)
    have h1 := ih (heckePair g (idx a y z) (idx (a + 1) y z))
      (fun x hx => hn x (List.mem_cons_of_mem _ hx))
    have h2 := heckePair_frame (g := g) ha.1 ha.2
    exact ⟨h1.1.trans h2.1, h1.2.trans h2.2⟩

lemma linePass_frame {f : Field} {y z n : ℕ} (h : ∀ x, x < NX → n ≠ idx x y z) :
    (linePass f y z).photon_density n = f.photon_density n
    ∧ (linePass f y z).axion_density n = f.axion_density n := by
  apply lineFold_frame
  intro x hx
  have hx1 : x < NX - 1 := List.mem_range.1 hx
  exact ⟨h x (by omega), h (x + 1) (by omega)⟩

lemma lineFold_nu_e {y z : ℕ} :
    ∀ (l : List ℕ) (g : Field),
      (l.foldl (fun h x => heckePair h (idx x y z) (idx (x + 1) y z)) g).neutrino_density
        = g.neutrino_density
      ∧ (l.foldl (fun h x => heckePair h (idx x y z) (idx (x + 1) y z)) g).energy_density
        = g.energy_density := by
  intro l
  induction l with
  | nil => intro g; exact ⟨rfl, rfl⟩
  | cons a tl ih =>
    intro g
    simp only [List.foldl_cons]
    exact ih _

lemma apply_hecke_nu_e (f : Field) :
    (apply_hecke_r_matrix f).neutrino_density = f.neutrino_density
    ∧ (apply_hecke_r_matrix f).energy_density = f.energy_density := by
  unfold apply_hecke_r_matrix
  generalize linesZY = L
  induction L generalizing f with
  | nil => exact ⟨rfl, rfl⟩
  | cons p tl ih =>
    simp only [List.foldl_cons]
    have h1 := ih (linePass f p.2 p.1)
    have h2 := lineFold_nu_e (List.range (NX - 1)) f (y := p.2) (z := p.1)
    exact ⟨h1.1.trans h2.1, h1.2.trans h2.2⟩

lemma heckeLineStep_congr {s₁ s₂ : (ℕ → ℝ) × (ℕ → ℝ)} {x : ℕ} (hx1 : x + 1 < NX)
    (h : ∀ p, p < NX → s₁.1 p = s₂.1 p ∧ s₁.2 p = s₂.2 p) :
    ∀ p, p < NX →
      (heckeLineStep s₁ x).1 p = (heckeLineStep s₂ x).1 p
      ∧ (heckeLineStep s₁ x).2 p = (heckeLineStep s₂ x).2 p := by
  intro p hp
  have hx : x < NX := by omega
  have e1 := (h x hx).1
  have e2 := (h x hx).2
  have e3 := (h (x + 1) hx1).1
  have e4 := (h (x + 1) hx1).2
  have e5 := h p hp
  constructor <;>
    simp only [heckeLineStep, Function.update_apply, e1, e2, e3, e4] <;>
    split_ifs <;> first | rfl | exact e5.1 | exact e5.2

lemma lineRecFold_congr :
    ∀ (l : List ℕ), (∀ x ∈ l, x + 1 < NX) →
      ∀ (s₁ s₂ : (ℕ → ℝ) × (ℕ → ℝ)),
        (∀ p, p < NX → s₁.1 p = s₂.1 p ∧ s₁.2 p = s₂.2 p) →
        ∀ p, p < NX →
          (l.foldl heckeLineStep s₁).1 p = (l.foldl heckeLineStep s₂).1 p
          ∧ (l.foldl heckeLineStep s₁).2 p = (l.foldl heckeLineStep s₂).2 p := by
  intro l
  induction l with
  | nil => intro _ s₁ s₂ h p hp; exact h p hp
  | cons a tl ih =>
    intro hl s₁ s₂ h p hp
    simp only [List.foldl_cons]
    exact ih (fun x hx => hl x (List.mem_cons_of_mem _ hx)) _ _
      (heckeLineStep_congr (hl a (List.mem_cons_self a tl)) h) p hp

lemma idx_line_ne {y z y' z' x x' : ℕ} (hy : y < NY) (hz : z < NZ) (hx : x < NX)
    (hy' : y' < NY) (hz' : z' < NZ) (hx' : x' < NX)
    (hne : (z, y) ≠ (z', y')) : idx x y z ≠ idx x' y' z' := by
  intro h
  obtain ⟨_, h2, h3⟩ := idx_inj hx hy hz hx' hy' hz' h
  exact hne (by rw [h2, h3])

lemma linesFold_frame {y₀ z₀ : ℕ} (hy : y₀ < NY) (hz : z₀ < NZ) :
    ∀ (L : List (ℕ × ℕ)) (g : Field),
      (∀ q ∈ L, q.1 < NZ ∧ q.2 < NY ∧ q ≠ (z₀, y₀)) →
      ∀ x, x < NX →
        (L.foldl (fun g p => linePass g p.2 p.1) g).photon_density (idx x y₀ z₀)
          = g.photon_density (idx x y₀ z₀)
        ∧ (L.foldl (fun g p => linePass g p.2 p.1) g).axion_density (idx x y₀ z₀)
          = g.axion_density (idx x y₀ z₀) := by
  intro L
  induction L with
  | nil => intro g _ x _; exact ⟨rfl, rfl⟩
  | cons q tl ih =>
    intro g hq x hx
    simp only [List.foldl_cons]
    obtain ⟨hq1, hq2, hq3⟩ := hq q (List.mem_cons_self q tl)
    have hframe : ∀ x', x' < NX → idx x y₀ z₀ ≠ idx x' q.2 q.1 := by
      intro x' hx'
      refine idx_line_ne hy hz hx hq2 hq1 hx' ?_
      intro hcontra
      exact hq3 (by
        obtain ⟨a, b⟩ := q
        simpa using hcontra.symm)
    have h1 := ih (linePass g q.2 q.1) (fun r hr => hq r (List.mem_cons_of_mem _ hr)) x hx
    have h2 := linePass_frame (f := g) (y := q.2) (z := q.1) hframe
    exact ⟨h1.1.trans h2.1, h1.2.trans h2.2⟩

lemma linesFold_char {y₀ z₀ : ℕ} (hy : y₀ < NY) (hz : z₀ < NZ) :
    ∀ (L : List (ℕ × ℕ)), L.Nodup → (∀ q ∈ L, q.1 < NZ ∧ q.2 < NY) → (z₀, y₀) ∈ L →
      ∀ (f : Field) (x : ℕ), x < NX →
        (L.foldl (fun g p => linePass g p.2 p.1) f).photon_density (idx x y₀ z₀)
          = (lineRecurrence (fun q => f.photon_density (idx q y₀ z₀))
              (fun q => f.axion_density (idx q y₀ z₀))).1 x
        ∧ (L.foldl (fun g p => linePass g p.2 p.1) f).axion_density (idx x y₀ z₀)
          = (lineRecurrence (fun q => f.photon_density (idx q y₀ z₀))
              (fun q => f.axion_density (idx q y₀ z₀))).2 x := by
  intro L
  induction L with
  | nil => intro _ _ hmem; exact absurd hmem (List.not_mem_nil _)
  | cons q tl ih =>
    intro hnodup hvalid hmem f x hx
    simp only [List.foldl_cons]
    by_cases hq : q = (z₀, y₀)
    · subst hq
      have hnotin : (z₀, y₀) ∉ tl := (List.nodup_cons.1 hnodup).1
      have hframe := linesFold_frame hy hz tl (linePass f y₀ z₀)
        (fun r hr => ⟨(hvalid r (List.mem_cons_of_mem _ hr)).1,
          (hvalid r (List.mem_cons_of_mem _ hr)).2,
          fun hcontra => hnotin (hcontra ▸ hr)⟩) x hx
      have hline := linePass_line f y₀ z₀ x
      exact ⟨hframe.1.trans hline.1, hframe.2.trans hline.2⟩
    · have hmem' : (z₀, y₀) ∈ tl := by
        rcases List.mem_cons.1 hmem with h | h
        · exact absurd h.symm hq
        · exact h
      obtain ⟨hq1, hq2⟩ := hvalid q (List.mem_cons_self q tl)
      have hagree : ∀ p, p < NX →
          (linePass f q.2 q.1).photon_density (idx p y₀ z₀) = f.photon_density (idx p y₀ z₀)
          ∧ (linePass f q.2 q.1).axion_density (idx p y₀ z₀) = f.axion_density (idx p y₀ z₀) := by
        intro p hp
        refine linePass_frame ?_
        intro x' hx'
        refine idx_line_ne hy hz hp hq2 hq1 hx' ?_
        intro hcontra
        exact hq (by obtain ⟨a, b⟩ := q; simpa using hcontra.symm)
      have hih := ih (List.nodup_cons.1 hnodup).2
        (fun r hr => hvalid r (List.mem_cons_of_mem _ hr)) hmem'
        (linePass f q.2 q.1) x hx
      have hcongr := lineRecFold_congr (List.range (NX - 1))
        (by intro a ha; have := List.mem_range.1 ha; omega)
        (fun p => (linePass f q.2 q.1).photon_density (idx p y₀ z₀),
         fun p => (linePass f q.2 q.1).axion_density (idx p y₀ z₀))
        (fun p => f.photon_density (idx p y₀ z₀), fun p => f.axion_density (idx p y₀ z₀))
        (fun p hp => hagree p hp) x hx
      exact ⟨hih.1.trans hcongr.1, hih.2.trans hcongr.2⟩

/-- The value of the full braiding pass on any valid cell equals the value of
the manual left-to-right line recurrence applied to the values of the
pre-braiding field along that line. -/
lemma apply_hecke_line (f : Field) {y z x : ℕ} (hy : y < NY) (hz : z < NZ)
    (hx : x < NX) :
    (apply_hecke_r_matrix f).photon_density (idx x y z)
      = (lineRecurrence (fun q => f.photon_density (idx q y z))
          (fun q => f.axion_density (idx q y z))).1 x
    ∧ (apply_hecke_r_matrix f).axion_density (idx x y z)
      = (lineRecurrence (fun q => f.photon_density (idx q y z))
          (fun q => f.axion_density (idx q y z))).2 x := by
  unfold apply_hecke_r_matrix
  exact linesFold_char hy hz linesZY linesZY_nodup
    (fun q hq => mem_linesZY.1 hq) (mem_linesZY.2 ⟨hz, hy⟩) f x hx

/-- C3: the braiding step processes, for every (y, z) line, the adjacent
pairs (x, x+1) in increasing order of x, computing the four new values of a
pair from the pre-pair-update values and writing them before the next pair is
processed; consequently the photon and axion values of the full pass on every
line equal the manual left-to-right recurrence (lineRecurrence, built from the
pair formulas of the spec) applied to the pre-pass values of that line. -/
theorem claim_C3_braiding_sequential (f : Field) (y z x : ℕ)
    (hy : y < NY) (hz : z < NZ) (hx : x < NX) :
    (apply_hecke_r_matrix f).photon_density (idx x y z)
      = (lineRecurrence (fun q => f.photon_density (idx q y z))
          (fun q => f.axion_density (idx q y z))).1 x
    ∧ (apply_hecke_r_matrix f).axion_density (idx x y z)
      = (lineRecurrence (fun q => f.photon_density (idx q y z))
          (fun q => f.axion_density (idx q y z))).2 x :=
  apply_hecke_line f hy hz hx

/-- Witness for C3 at the all-ones field, line (0, 0), site 5. -/
theorem claim_C3_witness :
    (apply_hecke_r_matrix oneField).photon_density (idx 5 0 0)
      = (lineRecurrence (fun q => oneField.photon_density (idx q 0 0))
          (fun q => oneField.axion_density (idx q 0 0))).1 5
    ∧ (apply_hecke_r_matrix oneField).axion_density (idx 5 0 0)
      = (lineRecurrence (fun q => oneField.photon_density (idx q 0 0))
          (fun q => oneField.axion_density (idx q 0 0))).2 5 :=
  claim_C3_braiding_sequential oneField 0 0 5 (by decide) (by decide) (by decide)

/-- C8: the braiding step modifies only the photon and axion arrays; the
neutrino and energy densities after the braiding step are exactly equal to
their values before it, at every offset. -/
theorem claim_C8_braiding_frame (f : Field) :
    (apply_hecke_r_matrix f).neutrino_density = f.neutrino_density
    ∧ (apply_hecke_r_matrix f).energy_density = f.energy_density :=
  apply_hecke_nu_e f

/-- Witness for C8 at the all-ones field. -/
theorem claim_C8_witness :
    (apply_hecke_r_matrix oneField).neutrino_density = oneField.neutrino_density
    ∧ (apply_hecke_r_matrix oneField).energy_density = oneField.energy_density :=
  claim_C8_braiding_frame oneField

/-! ### The last site of a line under the braiding pass -/

lemma heckeLineStep_frame {s : (ℕ → ℝ) × (ℕ → ℝ)} {x p : ℕ}
    (h1 : p ≠ x) (h2 : p ≠ x + 1) :
    (heckeLineStep s x).1 p = s.1 p ∧ (heckeLineStep s x).2 p = s.2 p := by
  constructor <;>
    simp only [heckeLineStep, Function.update_apply, if_neg h1, if_neg h2]

lemma lineStepFold_frame {p : ℕ} :
    ∀ (l : List ℕ) (s : (ℕ → ℝ) × (ℕ → ℝ)), (∀ x ∈ l, p ≠ x ∧ p ≠ x + 1) →
      (l.foldl heckeLineStep s).1 p = s.1 p ∧ (l.foldl heckeLineStep s).2 p = s.2 p := by
  intro l
  induction l with
  | nil => intro s _; exact ⟨rfl, rfl⟩
  | cons a tl ih =>
    intro s hs
    simp only [List.foldl_cons]
    have ha := hs a (List.mem_cons_self a tl)
    have h1 := ih (heckeLineStep s a) (fun x hx => hs x (List.mem_cons_of_mem _ hx))
    have h2 := heckeLineStep_frame (s := s) (x := a) ha.1 ha.2
    exact ⟨h1.1.trans h2.1, h1.2.trans h2.2⟩

/-- Splitting the line recurrence at its final pair (NX-2, NX-1). -/
lemma lineRecurrence_last (ph ax : ℕ → ℝ) :
    lineRecurrence ph ax
      = heckeLineStep ((List.range (NX - 2)).foldl heckeLineStep (ph, ax)) (NX - 2) := by
  unfold lineRecurrence
  rw [show List.range (NX - 1) = List.range (NX - 2) ++ [NX - 2] from List.range_succ 18]
  rw [List.foldl_append]
  rfl

/-- C4 (amended): the last site x = NX-1 of each line is never the left
member of a pair, but it is written once, as the right member of the final
pair (NX-2, NX-1); its post-pass values combine its own pre-pass value with
the value held by site NX-2 after the first NX-2 pairs of the recurrence. -/
theorem claim_C4_amended (f : Field) (y z : ℕ) (hy : y < NY) (hz : z < NZ) :
    (apply_hecke_r_matrix f).photon_density (idx (NX - 1) y z)
      = 0.5 * (f.photon_density (idx (NX - 1) y z) * qm
          + ((List.range (NX - 2)).foldl heckeLineStep
              (fun q => f.photon_density (idx q y z),
               fun q => f.axion_density (idx q y z))).2 (NX - 2))
    ∧ (apply_hecke_r_matrix f).axion_density (idx (NX - 1) y z)
      = 0.5 * (f.axion_density (idx (NX - 1) y z) * qp
          + ((List.range (NX - 2)).foldl heckeLineStep
              (fun q => f.photon_density (idx q y z),
               fun q => f.axion_density (idx q y z))).1 (NX - 2)) := by
  have hline := apply_hecke_line f hy hz (x := NX - 1) (by decide)
  rw [lineRecurrence_last] at hline
  set s := (List.range (NX - 2)).foldl heckeLineStep
    (fun q => f.photon_density (idx q y z), fun q => f.axion_density (idx q y z)) with hs
  have hfr := lineStepFold_frame (p := NX - 1) (List.range (NX - 2))
    (fun q => f.photon_density (idx q y z), fun q => f.axion_density (idx q y z))
    (by intro a ha; have := List.mem_range.1 ha; unfold NX at *; omega)
  have hstep1 : (heckeLineStep s (NX - 2)).1 (NX - 1) = 0.5 * (s.1 (NX - 1) * qm + s.2 (NX - 2)) := by
    simp only [heckeLineStep, Function.update_apply, if_pos (show NX - 1 = NX - 2 + 1 from rfl)]
    rfl
  have hstep2 : (heckeLineStep s (NX - 2)).2 (NX - 1) = 0.5 * (s.2 (NX - 1) * qp + s.1 (NX - 2)) := by
    simp only [heckeLineStep, Function.update_apply, if_pos (show NX - 1 = NX - 2 + 1 from rfl)]
    rfl
  rw [hstep1, hstep2] at hline
  rw [← hs] at hfr
  rw [hfr.1, hfr.2] at hline
  exact hline

/-- Witness for the amended C4 at the all-ones field, line (0, 0). -/
theorem claim_C4_amended_witness :
    (apply_hecke_r_matrix oneField).photon_density (idx (NX - 1) 0 0)
      = 0.5 * (oneField.photon_density (idx (NX - 1) 0 0) * qm
          + ((List.range (NX - 2)).foldl heckeLineStep
              (fun q => oneField.photon_density (idx q 0 0),
               fun q => oneField.axion_density (idx q 0 0))).2 (NX - 2))
    ∧ (apply_hecke_r_matrix oneField).axion_density (idx (NX - 1) 0 0)
      = 0.5 * (oneField.axion_density (idx (NX - 1) 0 0) * qp
          + ((List.range (NX - 2)).foldl heckeLineStep
              (fun q => oneField.photon_density (idx q 0 0),
               fun q => oneField.axion_density (idx q 0 0))).1 (NX - 2)) :=
  claim_C4_amended oneField 0 0 (by decide) (by decide)

/-- A field that is zero everywhere except for the axion density at the last
site of the first line, used to exhibit that the braiding pass does write the
last site of a line. -/
def lastSiteField : Field :=
  { photon_density := fun _ => 0
    axion_density := fun n => if n = 19 then 4 else 0
    neutrino_density := fun _ => 0
    energy_density := fun _ => 0 }

/-- C4 (counterexample): the last site of a line is NOT left untouched by the
braiding pass: on lastSiteField, the axion density of site (NX-1, 0, 0)
changes. -/
theorem claim_C4_counterexample :
    (apply_hecke_r_matrix lastSiteField).axion_density (idx (NX - 1) 0 0)
      ≠ lastSiteField.axion_density (idx (NX - 1) 0 0) := by
  have hline := (apply_hecke_line lastSiteField (y := 0) (z := 0) (x := NX - 1)
    (by decide) (by decide) (by decide)).2
  have hs2 : (fun q => lastSiteField.axion_density (idx q 0 0))
      = fun q : ℕ => if q = 19 then (4 : ℝ) else 0 := by
    funext q
    simp [lastSiteField, idx, NX, NY]
  have hs1 : (fun q => lastSiteField.photon_density (idx q 0 0)) = fun _ : ℕ => (0 : ℝ) := rfl
  rw [hs1, hs2] at hline
  have hnoop : ∀ a ∈ List.range (NX - 2),
      heckeLineStep ((fun _ : ℕ => (0 : ℝ)), fun q : ℕ => if q = 19 then (4 : ℝ) else 0) a
        = ((fun _ : ℕ => (0 : ℝ)), fun q : ℕ => if q = 19 then (4 : ℝ) else 0) := by
    intro a ha
    have ha18 : a < 18 := by
      have := List.mem_range.1 ha
      unfold NX at this
      omega
    have hva : (if a = 19 then (4 : ℝ) else 0) = 0 := if_neg (by omega)
    have hva1 : (if a + 1 = 19 then (4 : ℝ) else 0) = 0 := if_neg (by omega)
    unfold heckeLineStep
    refine Prod.ext ?_ ?_ <;> funext n <;>
      simp only [Function.update_apply, hva, hva1] <;>
      split_ifs <;>
      (try norm_num) <;>
      (exfalso; omega)
  have hrec : lineRecurrence (fun _ : ℕ => (0 : ℝ)) (fun q : ℕ => if q = 19 then (4 : ℝ) else 0)
      = heckeLineStep ((fun _ : ℕ => (0 : ℝ)), fun q : ℕ => if q = 19 then (4 : ℝ) else 0) (NX - 2) := by
    rw [lineRecurrence_last]
    rw [foldl_fixed_of_mem _ _ _ hnoop]
  rw [hrec] at hline
  have hval : (heckeLineStep ((fun _ : ℕ => (0 : ℝ)), fun q : ℕ => if q = 19 then (4 : ℝ) else 0)
      (NX - 2)).2 (NX - 1) = 2 * qp := by
    simp only [heckeLineStep, Function.update_apply, if_pos (show NX - 1 = NX - 2 + 1 from rfl)]
    norm_num [NX]
    ring
  rw [hline, hval]
  have h4 : lastSiteField.axion_density (idx (NX - 1) 0 0) = 4 := by
    simp [lastSiteField, idx, NX, NY]
  rw [h4]
  have hq := qp_lt
  intro hcontra
  linarith

/-! ### Nonnegativity through the braiding pass and the full timestep -/

lemma heckePair_nonneg {g : Field}
    (h : (∀ n, 0 ≤ g.photon_density n) ∧ (∀ n, 0 ≤ g.axion_density n)) (i j : ℕ) :
    (∀ n, 0 ≤ (heckePair g i j).photon_density n)
    ∧ (∀ n, 0 ≤ (heckePair g i j).axion_density n) := by
  have hval1 : ∀ a b : ℝ, 0 ≤ a → 0 ≤ b → 0 ≤ 0.5 * (a * qm + b) := by
    intro a b ha hb
    have := mul_nonneg ha qm_pos.le
    nlinarith
  have hval2 : ∀ a b : ℝ, 0 ≤ a → 0 ≤ b → 0 ≤ 0.5 * (a * qp + b) := by
    intro a b ha hb
    have := mul_nonneg ha qp_pos.le
    nlinarith
  constructor <;> intro n <;>
    simp only [heckePair, Function.update_apply] <;>
    split_ifs
  · exact hval1 _ _ (h.1 j) (h.2 i)
  · exact hval1 _ _ (h.1 i) (h.2 j)
  · exact h.1 n
  · exact hval2 _ _ (h.2 j) (h.1 i)
  · exact hval2 _ _ (h.2 i) (h.1 j)
  · exact h.2 n

lemma apply_hecke_nonneg {f : Field}
    (hph : ∀ n, 0 ≤ f.photon_density n) (hax : ∀ n, 0 ≤ f.axion_density n) :
    (∀ n, 0 ≤ (apply_hecke_r_matrix f).photon_density n)
    ∧ (∀ n, 0 ≤ (apply_hecke_r_matrix f).axion_density n) := by
  unfold apply_hecke_r_matrix
  refine foldl_invariant
    (fun g => (∀ n, 0 ≤ g.photon_density n) ∧ (∀ n, 0 ≤ g.axion_density n))
    _ linesZY f ?_ ⟨hph, hax⟩
  intro g p hg
  unfold linePass
  exact foldl_invariant
    (fun g => (∀ n, 0 ≤ g.photon_density n) ∧ (∀ n, 0 ≤ g.axion_density n))
    _ (List.range (NX - 1)) g (fun g' x hg' => heckePair_nonneg hg' _ _) hg

lemma reaction_diffusion_nonneg {f : Field} (t : ℝ)
    (h : ∀ n, 0 ≤ f.photon_density n ∧ 0 ≤ f.axion_density n
      ∧ 0 ≤ f.neutrino_density n ∧ 0 ≤ f.energy_density n) :
    ∀ n, 0 ≤ (reaction_diffusion_step f t).photon_density n
      ∧ 0 ≤ (reaction_diffusion_step f t).axion_density n
      ∧ 0 ≤ (reaction_diffusion_step f t).neutrino_density n
      ∧ 0 ≤ (reaction_diffusion_step f t).energy_density n := by
  intro n
  by_cases hn : n < NX * NY * NZ
  · obtain ⟨x, y, z, hx, hy, hz, rfl⟩ := exists_idx hn
    refine ⟨?_, ?_, ?_, ?_⟩
    · rw [reaction_diffusion_step_photon f t hx hy hz]; exact le_max_right _ _
    · rw [reaction_diffusion_step_axion f t hx hy hz]; exact le_max_right _ _
    · rw [reaction_diffusion_step_neutrino f t hx hy hz]; exact le_max_right _ _
    · rw [reaction_diffusion_step_energy f t hx hy hz]; exact le_max_right _ _
  · have hu := reaction_diffusion_step_untouched f t (n := n) (by omega)
    refine ⟨?_, ?_, ?_, ?_⟩
    · rw [hu.1]; exact (h n).1
    · rw [hu.2.1]; exact (h n).2.1
    · rw [hu.2.2.1]; exact (h n).2.2.1
    · rw [hu.2.2.2]; exact (h n).2.2.2

/-- C10: the braiding step preserves nonnegativity of the photon and axion
arrays (each written value is 0.5 times a sum of products of nonnegative
numbers, the factors Q to the powers 0.5 and -0.5 being positive); hence all
four fields are nonnegative at the end of every full timestep, for any
starting state that is nonnegative everywhere. -/
theorem claim_C10_braiding_nonneg :
    (∀ f : Field, (∀ n, 0 ≤ f.photon_density n) → (∀ n, 0 ≤ f.axion_density n) →
      (∀ n, 0 ≤ (apply_hecke_r_matrix f).photon_density n)
      ∧ (∀ n, 0 ≤ (apply_hecke_r_matrix f).axion_density n))
    ∧ (∀ (f : Field) (t : ℝ),
      (∀ n, 0 ≤ f.photon_density n ∧ 0 ≤ f.axion_density n
        ∧ 0 ≤ f.neutrino_density n ∧ 0 ≤ f.energy_density n) →
      ∀ n, 0 ≤ (timestep f t).photon_density n
        ∧ 0 ≤ (timestep f t).axion_density n
        ∧ 0 ≤ (timestep f t).neutrino_density n
        ∧ 0 ≤ (timestep f t).energy_density n) := by
  constructor
  · intro f hph hax
    exact apply_hecke_nonneg hph hax
  · intro f t h n
    have hrd := reaction_diffusion_nonneg t h
    have hhecke := apply_hecke_nonneg (f := reaction_diffusion_step f t)
      (fun m => (hrd m).1) (fun m => (hrd m).2.1)
    have hnue := apply_hecke_nu_e (reaction_diffusion_step f t)
    unfold timestep
    refine ⟨hhecke.1 n, hhecke.2 n, ?_, ?_⟩
    · rw [hnue.1]; exact (hrd n).2.2.1
    · rw [hnue.2]; exact (hrd n).2.2.2

/-- Witness for C10 at the all-ones field and t = 0, offset 7. -/
theorem claim_C10_witness :
    0 ≤ (apply_hecke_r_matrix oneField).photon_density 7
    ∧ 0 ≤ (timestep oneField 0).energy_density 7 :=
  ⟨(claim_C10_braiding_nonneg.1 oneField (fun _ => zero_le_one) (fun _ => zero_le_one)).1 7,
   ((claim_C10_braiding_nonneg.2 oneField 0
      (fun _ => ⟨zero_le_one, zero_le_one, zero_le_one, zero_le_one⟩)) 7).2.2.2⟩

/-! ### Bounds for the hyperbolic tangent -/

lemma tanh_lt_one (x : ℝ) : Real.tanh x < 1 := by
  rw [Real.tanh_eq_sinh_div_cosh, div_lt_one (Real.cosh_pos x)]
  nlinarith [Real.cosh_sub_sinh x, Real.exp_pos (-x)]

lemma neg_one_lt_tanh (x : ℝ) : -1 < Real.tanh x := by
  rw [Real.tanh_eq_sinh_div_cosh, lt_div_iff₀ (Real.cosh_pos x)]
  nlinarith [Real.cosh_add_sinh x, Real.exp_pos x]

/-- C6: for every energy density eps, the pressure is the convex combination
of the fast equation of state eps/3 and the soft one 0.15 eps with logistic
weight w in [0, 1]; in particular it lies between the two (between their
minimum and their maximum, which for eps at least 0 is the interval from
0.15 eps to eps/3). -/
theorem claim_C6_pressure_blend (eps : ℝ) :
    min (0.15 * eps) (1 / 3 * eps) ≤ eos_pressure eps
    ∧ eos_pressure eps ≤ max (0.15 * eps) (1 / 3 * eps)
    ∧ eos_pressure eps
        = 0.5 * (1 + Real.tanh ((eps - EPSILON_CRIT) / DELTA)) * (1 / 3 * eps)
          + (1 - 0.5 * (1 + Real.tanh ((eps - EPSILON_CRIT) / DELTA))) * (0.15 * eps)
    ∧ 0 ≤ 0.5 * (1 + Real.tanh ((eps - EPSILON_CRIT) / DELTA))
    ∧ 0.5 * (1 + Real.tanh ((eps - EPSILON_CRIT) / DELTA)) ≤ 1 := by
  have ht1 := tanh_lt_one ((eps - EPSILON_CRIT) / DELTA)
  have ht2 := neg_one_lt_tanh ((eps - EPSILON_CRIT) / DELTA)
  set w := 0.5 * (1 + Real.tanh ((eps - EPSILON_CRIT) / DELTA)) with hw
  have hw0 : 0 ≤ w := by rw [hw]; linarith
  have hw1 : w ≤ 1 := by rw [hw]; linarith
  have hdef : eos_pressure eps = w * (1 / 3 * eps) + (1 - w) * (0.15 * eps) := by
    rw [hw]; rfl
  refine ⟨?_, ?_, hdef, hw0, hw1⟩
  · have h1 := min_le_left (0.15 * eps) (1 / 3 * eps)
    have h2 := min_le_right (0.15 * eps) (1 / 3 * eps)
    rw [hdef]
    nlinarith [mul_nonneg hw0 (sub_nonneg.2 h2), mul_nonneg (sub_nonneg.2 hw1) (sub_nonneg.2 h1)]
  · have h1 := le_max_left (0.15 * eps) (1 / 3 * eps)
    have h2 := le_max_right (0.15 * eps) (1 / 3 * eps)
    rw [hdef]
    nlinarith [mul_nonneg hw0 (sub_nonneg.2 h2), mul_nonneg (sub_nonneg.2 hw1) (sub_nonneg.2 h1)]

/-- Witness for C6 at eps = 1. -/
theorem claim_C6_witness :
    min (0.15 * (1 : ℝ)) (1 / 3 * 1) ≤ eos_pressure 1
    ∧ eos_pressure 1 ≤ max (0.15 * (1 : ℝ)) (1 / 3 * 1)
    ∧ eos_pressure 1
        = 0.5 * (1 + Real.tanh (((1 : ℝ) - EPSILON_CRIT) / DELTA)) * (1 / 3 * 1)
          + (1 - 0.5 * (1 + Real.tanh (((1 : ℝ) - EPSILON_CRIT) / DELTA))) * (0.15 * 1)
    ∧ 0 ≤ 0.5 * (1 + Real.tanh (((1 : ℝ) - EPSILON_CRIT) / DELTA))
    ∧ 0.5 * (1 + Real.tanh (((1 : ℝ) - EPSILON_CRIT) / DELTA)) ≤ 1 :=
  claim_C6_pressure_blend 1

/-- C7: for nonnegative inputs the conversion rates satisfy the exact
identity rate times (1 + n_ph / 1e33) equals coupling times input, each rate
vanishes when its driving input is zero, the saturation denominator is at
least 1 (hence never zero), and for a fixed numerator each rate is bounded by
coupling times input however large the photon density grows. -/
theorem claim_C7_saturation (n_ax n_ph : ℝ) (hax : 0 ≤ n_ax) (hph : 0 ≤ n_ph) :
    axion_photon_conversion n_ax n_ph * (1 + n_ph / 1e33) = G_A_GAMMA * n_ax
    ∧ photon_neutrino_conversion n_ph * (1 + n_ph / 1e33) = PHOTON_TO_NEUTRINO_COEFF * n_ph
    ∧ axion_photon_conversion 0 n_ph = 0
    ∧ photon_neutrino_conversion 0 = 0
    ∧ 1 ≤ 1 + n_ph / 1e33
    ∧ axion_photon_conversion n_ax n_ph ≤ G_A_GAMMA * n_ax
    ∧ photon_neutrino_conversion n_ph ≤ PHOTON_TO_NEUTRINO_COEFF * n_ph := by
  have hden : (1 : ℝ) ≤ 1 + n_ph / 1e33 := by
    have h := div_nonneg hph (show (0:ℝ) ≤ 1e33 by norm_num)
    linarith
  have hden0 : (1 + n_ph / 1e33) ≠ 0 := by positivity
  refine ⟨?_, ?_, ?_, ?_, hden, ?_, ?_⟩
  · simp only [axion_photon_conversion]
    exact div_mul_cancel₀ _ hden0
  · simp only [photon_neutrino_conversion]
    exact div_mul_cancel₀ _ hden0
  · simp [axion_photon_conversion]
  · simp [photon_neutrino_conversion]
  · simp only [axion_photon_conversion]
    exact div_le_self (mul_nonneg (by norm_num [G_A_GAMMA]) hax) hden
  · simp only [photon_neutrino_conversion]
    exact div_le_self (mul_nonneg (by norm_num [PHOTON_TO_NEUTRINO_COEFF]) hph) hden

/-- Witness for C7 at n_ax = 2, n_ph = 0. -/
theorem claim_C7_witness :
    axion_photon_conversion 2 0 * (1 + 0 / 1e33) = G_A_GAMMA * 2
    ∧ photon_neutrino_conversion 0 * (1 + 0 / 1e33) = PHOTON_TO_NEUTRINO_COEFF * 0
    ∧ axion_photon_conversion 0 0 = 0
    ∧ photon_neutrino_conversion 0 = 0
    ∧ (1 : ℝ) ≤ 1 + 0 / 1e33
    ∧ axion_photon_conversion 2 0 ≤ G_A_GAMMA * 2
    ∧ photon_neutrino_conversion 0 ≤ PHOTON_TO_NEUTRINO_COEFF * 0 :=
  claim_C7_saturation 2 0 (by norm_num) (by norm_num)

/-- C5: the coordinate clamp is edge replication into [0, max-1] (never
wraparound): negative coordinates go to 0, coordinates past the end go to
max-1, in-range coordinates are unchanged; consequently the Laplacian at the
corner cell (0, 0, 0) substitutes the value of the cell itself on every axis
whose true neighbor index would be negative, and equals the sum of the six
resolved neighbor values minus six times the center, divided by the spacing
squared. -/
theorem claim_C5_laplacian_clamped :
    (∀ (c : ℤ) (m : ℕ), 1 ≤ m →
      boundary_index c m < m
      ∧ (c < 0 → boundary_index c m = 0)
      ∧ ((m : ℤ) ≤ c → boundary_index c m = m - 1)
      ∧ (0 ≤ c → c < (m : ℤ) → (boundary_index c m : ℤ) = c))
    ∧ ∀ arr : ℕ → ℝ,
      laplacian arr 0 0 0
        = (arr (idx 1 0 0) + arr (idx 0 0 0) + arr (idx 0 1 0) + arr (idx 0 0 0)
            + arr (idx 0 0 1) + arr (idx 0 0 0) - 6 * arr (idx 0 0 0)) / (DX * DX) := by
  constructor
  · intro c m hm
    unfold boundary_index
    refine ⟨?_, ?_, ?_, ?_⟩ <;> intros <;> split_ifs <;> omega
  · intro arr
    unfold laplacian
    norm_num [boundary_index, NX, NY, NZ]

/-- Witness for C5 at c = -5, max = 20. -/
theorem claim_C5_witness :
    boundary_index (-5) 20 < 20 ∧ boundary_index (-5) 20 = 0 :=
  ⟨(claim_C5_laplacian_clamped.1 (-5) 20 (by norm_num)).1,
   (claim_C5_laplacian_clamped.1 (-5) 20 (by norm_num)).2.1 (by norm_num)⟩

/-- C9: boundary_index is total and always lands in [0, max-1] for max at
least 1; consequently every one of the seven array offsets read by the
Laplacian at a valid cell is below NX * NY * NZ, the length of the field
arrays, so the stencil never indexes out of bounds. -/
theorem claim_C9_index_safety :
    (∀ (c : ℤ) (m : ℕ), 1 ≤ m → boundary_index c m < m)
    ∧ ∀ x y z : ℕ, x < NX → y < NY → z < NZ →
        idx x y z < NX * NY * NZ
        ∧ idx (boundary_index ((x : ℤ) + 1) NX) y z < NX * NY * NZ
        ∧ idx (boundary_index ((x : ℤ) - 1) NX) y z < NX * NY * NZ
        ∧ idx x (boundary_index ((y : ℤ) + 1) NY) z < NX * NY * NZ
        ∧ idx x (boundary_index ((y : ℤ) - 1) NY) z < NX * NY * NZ
        ∧ idx x y (boundary_index ((z : ℤ) + 1) NZ) < NX * NY * NZ
        ∧ idx x y (boundary_index ((z : ℤ) - 1) NZ) < NX * NY * NZ := by
  have hb : ∀ (c : ℤ) (m : ℕ), 1 ≤ m → boundary_index c m < m := by
    intro c m hm
    unfold boundary_index
    split_ifs <;> omega
  refine ⟨hb, ?_⟩
  intro x y z hx hy hz
  have hnx : (1 : ℕ) ≤ NX := by norm_num [NX]
  have hny : (1 : ℕ) ≤ NY := by norm_num [NY]
  have hnz : (1 : ℕ) ≤ NZ := by norm_num [NZ]
  exact ⟨idx_lt hx hy hz,
    idx_lt (hb _ _ hnx) hy hz, idx_lt (hb _ _ hnx) hy hz,
    idx_lt hx (hb _ _ hny) hz, idx_lt hx (hb _ _ hny) hz,
    idx_lt hx hy (hb _ _ hnz), idx_lt hx hy (hb _ _ hnz)⟩

/-- Witness for C9 at cell (0, 0, 0) and at the out-of-range coordinate 100. -/
theorem claim_C9_witness :
    boundary_index 100 20 < 20 ∧ idx 0 0 0 < NX * NY * NZ :=
  ⟨claim_C9_index_safety.1 100 20 (by norm_num),
   (claim_C9_index_safety.2 0 0 0 (by decide) (by decide) (by decide)).1⟩

end ColorAlgebra
